import Mathlib

/-!
Shallow embedding of `corrosion`'s `src/assert/vec.rs`: the `AssertVec`
wrapper and its `contains_only` multiset-comparison assertion, together with
theorems about the matching pass and the mismatch report it renders.

Modelling conventions:
* Rust `Vec<T>` becomes `List T`; `T : Eq + Debug` becomes `[DecidableEq T]`
  plus an explicit debug-formatting function `fmt : T → String`.
* The `HashSet<usize>` of unexpected actual indices is modelled as a
  `List Nat` in insertion order; the code only ever queries membership and
  emptiness, which are order-insensitive (proved below).
* `panic!` is modelled by the `AssertResult.panicked` constructor carrying
  the panic message; the `unwrap()` on the first element of the iterator in
  `write_bad_values` is modelled by `Option`, with `AssertResult.unwrapPanic`
  marking the (unreachable) case where it would fire.
-/

namespace Corrosion

/-- A wrapper around a `Vec` for doing specialized assertions
(`struct AssertVec<T>(Vec<T>)`). -/
structure AssertVec (T : Type) where
  val : List T

/-- Outcome of a call to `contains_only`: returns normally, panics with the
assertion-failure message, or would panic inside `write_bad_values`'s
`unwrap()` (shown unreachable below). -/
inductive AssertResult where
  | ok : AssertResult
  | panicked : String → AssertResult
  | unwrapPanic : AssertResult
deriving DecidableEq

/-- Working state of the matching pass: the remaining unclaimed expected
indices (`exp_leftovers`) and the unexpected actual indices
(`self_leftovers`). -/
structure MatchState where
  expLeftovers : List Nat
  selfLeftovers : List Nat
deriving DecidableEq

/-- `Vec::swap_remove(i)`: removes the element at index `i`, replacing it
with the last element of the vector. -/
def swapRemove {α : Type _} (l : List α) (i : Nat) : List α :=
  match l.getLast? with
  | none => l
  | some last => (l.set i last).dropLast

/-- The inner scan of `contains_only`:
`exp_leftovers.iter().enumerate().filter_map(|(i, &exp_idx)| if expected[exp_idx] == *value { Some(i) } else { None }).next()`,
i.e. the first position `i` in the working list (in list order) whose
expected index holds a value equal to `value`. -/
def findFirstMatch {T : Type} [DecidableEq T] (expected : List T) :
    List Nat → T → Option Nat
  | [], _ => none
  | j :: ls, v =>
    if expected.get? j = some v then some 0
    else (findFirstMatch expected ls v).map (· + 1)

/-- The matching loop of `contains_only`: for each `(self_idx, value)` of the
enumerated actual vector, claim the first remaining expected index holding an
equal value (`swap_remove`-ing it), or else record `self_idx` as unexpected. -/
def containsOnlyScan {T : Type} [DecidableEq T] (expected : List T) :
    List (Nat × T) → MatchState → MatchState
  | [], st => st
  | (selfIdx, v) :: rest, st =>
    match findFirstMatch expected st.expLeftovers v with
    | some i =>
      containsOnlyScan expected rest ⟨swapRemove st.expLeftovers i, st.selfLeftovers⟩
    | none =>
      containsOnlyScan expected rest ⟨st.expLeftovers, st.selfLeftovers ++ [selfIdx]⟩

/-- `AssertVec::write_bad_values`: renders `values` positionally inside
square brackets, showing `fmt` of the elements whose index is in
`badIndices` and `_` elsewhere, separated by `", "`, terminated by a newline.
Returns `none` exactly when `values` is empty, where the Rust code's
`iter.next().unwrap()` would panic. -/
def writeBadValues {T : Type} [DecidableEq T] (fmt : T → String)
    (values : List T) (badIndices : List Nat) : Option String :=
  match values with
  | [] => none
  | v :: rest =>
    let first := if 0 ∈ badIndices then fmt v else "_"
    let tail := String.join ((rest.enumFrom 1).map
      (fun p => if p.1 ∈ badIndices then ", " ++ fmt p.2 else ", " ++ "_"))
    some ("[" ++ first ++ tail ++ "]" ++ "\n")

/-- The report-building tail of `contains_only`: writes the
`Unexpected values: ` section when `self_leftovers` is non-empty and the
`Missing expected values: ` section when `exp_leftovers` is non-empty, and
panics with the combined message when either section was written. -/
def buildResult {T : Type} [DecidableEq T] (fmt : T → String)
    (actual expected : List T) (sl el : List Nat) : AssertResult :=
  let part1 : Option String :=
    if sl.isEmpty then some ""
    else (writeBadValues fmt actual sl).map (fun s => "Unexpected values: " ++ s)
  let part2 : Option String :=
    if el.isEmpty then some ""
    else (writeBadValues fmt expected el).map (fun s => "Missing expected values: " ++ s)
  match part1, part2 with
  | some s1, some s2 =>
    if sl.isEmpty ∧ el.isEmpty then .ok
    else .panicked ("Vectors contain different values:" ++ "\n" ++ s1 ++ s2)
  | _, _ => .unwrapPanic

/-- `AssertVec::contains_only`: run the matching pass over the enumerated
actual vector starting from the full working list `0..expected.len()`, then
build the report from the two leftover sets. -/
def contains_only {T : Type} [DecidableEq T] (fmt : T → String)
    (av : AssertVec T) (expected : List T) : AssertResult :=
  let st := containsOnlyScan expected av.val.enum
    ⟨List.range expected.length, []⟩
  buildResult fmt av.val expected st.selfLeftovers st.expLeftovers

/-- Debug formatting of `u32`, as used by the repository's tests. -/
def fmtNat : Nat → String := fun n => toString n

/-- Multiset of expected values sitting at a list of indices. -/
def idxVals {T : Type} (expected : List T) (ls : List Nat) : Multiset T :=
  ↑(ls.filterMap expected.get?)

/-- Proof-side recursive description of which actual entries the greedy
first-match pass leaves unmatched, tracking only the multiset of still
unclaimed expected values. -/
def greedyUnmatched {T : Type} [DecidableEq T] : Multiset T → List (Nat × T) → List Nat
  | _, [] => []
  | E, (i, v) :: rest =>
    if v ∈ E then greedyUnmatched (E.erase v) rest
    else i :: greedyUnmatched E rest

/-- The matching pass of `contains_only` on `actual` versus `expected`. -/
def scanResult {T : Type} [DecidableEq T] (actual expected : List T) : MatchState :=
  containsOnlyScan expected actual.enum ⟨List.range expected.length, []⟩

/-- Rendering of one leftover section as the spec describes it: the sequence
displayed positionally, indices in the leftover set showing the element's
debug representation and all other indices showing the placeholder `_`,
entries joined with `", "`, enclosed in square brackets, newline-terminated. -/
def renderPositional {T : Type} [DecidableEq T] (fmt : T → String)
    (values : List T) (bad : List Nat) : String :=
  "[" ++ String.intercalate (", ")
      (values.enum.map (fun p => if p.1 ∈ bad then fmt p.2 else "_"))
    ++ "]" ++ "\n"

/-- State-passing reading of the `&self` method call `self.contains_only(expected)`:
the receiver is borrowed immutably, so the translation threads the `AssertVec`
through and pairs the final receiver state with the call's outcome. -/
def contains_only_run {T : Type} [DecidableEq T] (fmt : T → String)
    (av : AssertVec T) (expected : List T) : AssertVec T × AssertResult :=
  (av, contains_only fmt av expected)

/-- Fuel-indexed version of the matching loop, consuming one unit of fuel per
iteration of the outer `for` loop; used to state termination. -/
def containsOnlyScanFuel {T : Type} [DecidableEq T] (expected : List T) :
    Nat → List (Nat × T) → MatchState → Option MatchState
  | _, [], st => some st
  | 0, _ :: _, _ => none
  | fuel + 1, (selfIdx, v) :: rest, st =>
    match findFirstMatch expected st.expLeftovers v with
    | some i =>
      containsOnlyScanFuel expected fuel rest ⟨swapRemove st.expLeftovers i, st.selfLeftovers⟩
    | none =>
      containsOnlyScanFuel expected fuel rest ⟨st.expLeftovers, st.selfLeftovers ++ [selfIdx]⟩

/-- Number of element comparisons performed by the matching loop: the inner
scan stops at the first match (position `i` costs `i + 1` comparisons) and
otherwise examines the whole working list. -/
def scanComparisons {T : Type} [DecidableEq T] (expected : List T) :
    List (Nat × T) → List Nat → Nat
  | [], _ => 0
  | (_, v) :: rest, ls =>
    match findFirstMatch expected ls v with
    | some i => (i + 1) + scanComparisons expected rest (swapRemove ls i)
    | none => ls.length + scanComparisons expected rest ls

theorem contains_only_eq_buildResult {T : Type} [DecidableEq T] (fmt : T → String)
    (av : AssertVec T) (expected : List T) :
    contains_only fmt av expected =
      buildResult fmt av.val expected (scanResult av.val expected).selfLeftovers
        (scanResult av.val expected).expLeftovers := rfl

theorem swapRemove_perm {α : Type _} :
    ∀ (l : List α) (i : Nat), i < l.length → (swapRemove l i).Perm (l.eraseIdx i)
  | [], _, h => absurd h (by simp)
  | [a], i, h => by
    have hi : i = 0 := by simpa using h
    subst hi
    rfl
  | a :: b :: t, 0, _ => by
    obtain ⟨last, hlast⟩ : ∃ last, (b :: t).getLast? = some last :=
      Option.isSome_iff_exists.mp (List.getLast?_isSome.mpr (by simp))
    have hl : last = (b :: t).getLast (by simp) := by
      have h2 := List.getLast?_eq_getLast (b :: t) (by simp)
      rw [h2] at hlast
      exact (Option.some_inj.mp hlast).symm
    show List.Perm (swapRemove (a :: b :: t) 0) (b :: t)
    rw [swapRemove]
    rw [show (a :: b :: t).getLast? = some last from List.getLast?_cons_cons.trans hlast]
    show List.Perm ((last :: b :: t).dropLast) (b :: t)
    rw [List.dropLast_cons_of_ne_nil (by simp)]
    have h1 : List.Perm ((b :: t).dropLast ++ [last]) (last :: (b :: t).dropLast) :=
      List.perm_append_singleton _ _
    have h2 : (b :: t).dropLast ++ [last] = b :: t := by
      rw [hl]
      exact List.dropLast_append_getLast (by simp)
    exact (h2 ▸ h1).symm
  | a :: b :: t, j + 1, h => by
    obtain ⟨last, hlast⟩ : ∃ last, (b :: t).getLast? = some last :=
      Option.isSome_iff_exists.mp (List.getLast?_isSome.mpr (by simp))
    have hj : j < (b :: t).length := by
      simpa using Nat.lt_of_succ_lt_succ h
    show List.Perm (swapRemove (a :: b :: t) (j + 1)) ((a :: b :: t).eraseIdx (j + 1))
    rw [swapRemove]
    rw [show (a :: b :: t).getLast? = some last from List.getLast?_cons_cons.trans hlast]
    show List.Perm ((a :: (b :: t).set j last).dropLast) (a :: (b :: t).eraseIdx j)
    rw [List.dropLast_cons_of_ne_nil (by
      intro hnil
      have hlen := congrArg List.length hnil
      simp at hlen)]
    refine List.Perm.cons a ?_
    have hsw : swapRemove (b :: t) j = ((b :: t).set j last).dropLast := by
      rw [swapRemove, hlast]
    rw [← hsw]
    exact swapRemove_perm (b :: t) j hj

theorem swapRemove_length {α : Type _} (l : List α) (i : Nat) (h : i < l.length) :
    (swapRemove l i).length = l.length - 1 := by
  rw [(swapRemove_perm l i h).length_eq, List.length_eraseIdx]
  simp [h]

theorem mem_of_mem_swapRemove {α : Type _} {l : List α} {i : Nat} {a : α}
    (h : i < l.length) (ha : a ∈ swapRemove l i) : a ∈ l :=
  (List.eraseIdx_sublist l i).mem ((swapRemove_perm l i h).mem_iff.mp ha)

theorem swapRemove_nodup {α : Type _} {l : List α} {i : Nat}
    (h : i < l.length) (hl : l.Nodup) : (swapRemove l i).Nodup :=
  (swapRemove_perm l i h).nodup_iff.mpr ((List.eraseIdx_sublist l i).nodup hl)

theorem get?_lt_length {α : Type _} {l : List α} {n : Nat} {a : α}
    (h : l.get? n = some a) : n < l.length := by
  rw [List.get?_eq_getElem?] at h
  exact (List.getElem?_eq_some_iff.mp h).1

theorem findFirstMatch_eq_none_iff {T : Type} [DecidableEq T] (expected : List T) :
    ∀ (ls : List Nat) (v : T),
      findFirstMatch expected ls v = none ↔ ∀ j ∈ ls, ¬expected.get? j = some v := by
  intro ls v
  induction ls with
  | nil => simp [findFirstMatch]
  | cons j ls ih =>
    rw [findFirstMatch]
    by_cases h : expected.get? j = some v
    · rw [if_pos h]
      constructor
      · intro hc; simp at hc
      · intro hall; exact absurd h (hall j (by simp))
    · simp only [h, if_false, Option.map_eq_none', ih, List.mem_cons]
      constructor
      · intro hall k hk
        rcases hk with hk | hk
        · rw [hk]; exact h
        · exact hall k hk
      · intro hall k hk
        exact hall k (Or.inr hk)

theorem findFirstMatch_eq_some {T : Type} [DecidableEq T] (expected : List T) :
    ∀ (ls : List Nat) (v : T) (i : Nat), findFirstMatch expected ls v = some i →
      ∃ j, ls.get? i = some j ∧ expected.get? j = some v := by
  intro ls
  induction ls with
  | nil => intro v i h; simp [findFirstMatch] at h
  | cons j ls ih =>
    intro v i h
    rw [findFirstMatch] at h
    by_cases hj : expected.get? j = some v
    · rw [if_pos hj] at h
      obtain rfl : i = 0 := (Option.some_inj.mp h).symm
      exact ⟨j, rfl, hj⟩
    · rw [if_neg hj, Option.map_eq_some'] at h
      obtain ⟨i', hi', rfl⟩ := h
      obtain ⟨k, hk, hkv⟩ := ih v i' hi'
      exact ⟨k, by simpa using hk, hkv⟩

theorem findFirstMatch_lt_length {T : Type} [DecidableEq T] {expected : List T}
    {ls : List Nat} {v : T} {i : Nat} (h : findFirstMatch expected ls v = some i) :
    i < ls.length := by
  obtain ⟨j, hj, _⟩ := findFirstMatch_eq_some expected ls v i h
  exact get?_lt_length hj

theorem mem_idxVals {T : Type} {expected : List T} {ls : List Nat} {v : T} :
    v ∈ idxVals expected ls ↔ ∃ j ∈ ls, expected.get? j = some v := by
  simp [idxVals, List.mem_filterMap]

theorem erase_add_cons {α : Type _} [DecidableEq α] (v : α) (A B : Multiset α) :
    (A + (v ::ₘ B)).erase v = A + B := by
  rw [add_comm, Multiset.cons_add, Multiset.erase_cons_head, add_comm]

theorem idxVals_swapRemove {T : Type} [DecidableEq T] (expected : List T)
    (ls : List Nat) (i : Nat) (v : T) (h : findFirstMatch expected ls v = some i) :
    idxVals expected (swapRemove ls i) = (idxVals expected ls).erase v := by
  obtain ⟨j, hget, hexp⟩ := findFirstMatch_eq_some expected ls v i h
  have hi : i < ls.length := get?_lt_length hget
  have hperm : List.Perm ((swapRemove ls i).filterMap expected.get?)
      ((ls.eraseIdx i).filterMap expected.get?) :=
    (swapRemove_perm ls i hi).filterMap expected.get?
  have hidx : ls[i] = j := by
    rw [List.get?_eq_getElem?] at hget
    exact (List.getElem?_eq_some_iff.mp hget).2
  have hdecomp : ls = ls.take i ++ j :: ls.drop (i + 1) := by
    rw [← hidx, List.getElem_cons_drop, List.take_append_drop]
  have herase : ls.eraseIdx i = ls.take i ++ ls.drop (i + 1) :=
    List.eraseIdx_eq_take_drop_succ ls i
  have hA : idxVals expected (swapRemove ls i)
      = ↑((ls.take i).filterMap expected.get?) + ↑((ls.drop (i + 1)).filterMap expected.get?) := by
    rw [idxVals, Multiset.coe_eq_coe.mpr hperm, herase]
    simp
  have hexp' : expected[j]? = some v := by
    rw [← List.get?_eq_getElem?]
    exact hexp
  have hB : idxVals expected ls
      = ↑((ls.take i).filterMap expected.get?)
        + (v ::ₘ ↑((ls.drop (i + 1)).filterMap expected.get?)) := by
    rw [idxVals]
    conv in ls.filterMap _ => rw [hdecomp]
    simp [hexp']
  rw [hA, hB, erase_add_cons]

theorem findFirstMatch_none_iff_not_mem {T : Type} [DecidableEq T] (expected : List T)
    (ls : List Nat) (v : T) :
    findFirstMatch expected ls v = none ↔ v ∉ idxVals expected ls := by
  rw [findFirstMatch_eq_none_iff, mem_idxVals]
  push_neg
  rfl

theorem greedyUnmatched_eq_nil_iff {T : Type} [DecidableEq T] :
    ∀ (as : List (Nat × T)) (E : Multiset T),
      greedyUnmatched E as = [] ↔ (↑(as.map Prod.snd) : Multiset T) ≤ E := by
  intro as
  induction as with
  | nil => intro E; simp [greedyUnmatched]
  | cons p rest ih =>
    obtain ⟨i, v⟩ := p
    intro E
    rw [List.map_cons, greedyUnmatched]
    dsimp only
    by_cases hv : v ∈ E
    · rw [if_pos hv, ih, ← Multiset.cons_coe, Multiset.le_iff_count, Multiset.le_iff_count]
      have hvE : 1 ≤ Multiset.count v E := Multiset.one_le_count_iff_mem.mpr hv
      constructor
      · intro hc w
        have hw := hc w
        by_cases hwv : w = v
        · subst hwv
          rw [Multiset.count_cons_self]
          rw [Multiset.count_erase_self] at hw
          omega
        · rw [Multiset.count_cons_of_ne hwv]
          rw [Multiset.count_erase_of_ne hwv] at hw
          omega
      · intro hc w
        have hw := hc w
        by_cases hwv : w = v
        · subst hwv
          rw [Multiset.count_cons_self] at hw
          rw [Multiset.count_erase_self]
          omega
        · rw [Multiset.count_cons_of_ne hwv] at hw
          rw [Multiset.count_erase_of_ne hwv]
          omega
    · rw [if_neg hv, ← Multiset.cons_coe]
      constructor
      · intro hc; cases hc
      · intro hle
        exact absurd (Multiset.mem_of_le hle (Multiset.mem_cons_self v _)) hv

theorem greedyUnmatched_length {T : Type} [DecidableEq T] :
    ∀ (as : List (Nat × T)) (E : Multiset T),
      (greedyUnmatched E as).length = Multiset.card ((↑(as.map Prod.snd) : Multiset T) - E) := by
  intro as
  induction as with
  | nil => intro E; simp [greedyUnmatched, zero_tsub]
  | cons p rest ih =>
    obtain ⟨i, v⟩ := p
    intro E
    rw [List.map_cons]
    dsimp only
    rw [← Multiset.cons_coe, greedyUnmatched]
    by_cases hv : v ∈ E
    · rw [if_pos hv, ih]
      have hvE : 1 ≤ Multiset.count v E := Multiset.one_le_count_iff_mem.mpr hv
      have heq : (↑(rest.map Prod.snd) : Multiset T) - E.erase v
          = (v ::ₘ ↑(rest.map Prod.snd)) - E := by
        refine Multiset.ext.mpr fun w => ?_
        rw [Multiset.count_sub, Multiset.count_sub]
        by_cases hwv : w = v
        · subst hwv
          rw [Multiset.count_cons_self, Multiset.count_erase_self]
          omega
        · rw [Multiset.count_cons_of_ne hwv, Multiset.count_erase_of_ne hwv]
      rw [heq]
    · rw [if_neg hv, List.length_cons, ih]
      have hvE : Multiset.count v E = 0 := Multiset.count_eq_zero.mpr hv
      have heq : (v ::ₘ ↑(rest.map Prod.snd)) - E
          = v ::ₘ ((↑(rest.map Prod.snd) : Multiset T) - E) := by
        refine Multiset.ext.mpr fun w => ?_
        rw [Multiset.count_sub]
        by_cases hwv : w = v
        · subst hwv
          rw [Multiset.count_cons_self, Multiset.count_cons_self, Multiset.count_sub]
          omega
        · rw [Multiset.count_cons_of_ne hwv, Multiset.count_cons_of_ne hwv, Multiset.count_sub]
      rw [heq, Multiset.card_cons]

theorem greedyUnmatched_sublist {T : Type} [DecidableEq T] :
    ∀ (as : List (Nat × T)) (E : Multiset T),
      List.Sublist (greedyUnmatched E as) (as.map Prod.fst) := by
  intro as
  induction as with
  | nil => intro E; simp [greedyUnmatched]
  | cons p rest ih =>
    obtain ⟨i, v⟩ := p
    intro E
    rw [List.map_cons, greedyUnmatched]
    by_cases hv : v ∈ E
    · rw [if_pos hv]
      exact (ih (E.erase v)).cons i
    · rw [if_neg hv]
      exact (ih E).cons₂ i

theorem count_take_pos_of_get? {T : Type} [DecidableEq T] {l : List T} {k : Nat} {v : T}
    (h : l.get? k = some v) : 0 < (l.take (k + 1)).count v := by
  have hk : (l.take (k + 1)).get? k = l.get? k := by
    rw [List.get?_eq_getElem?, List.get?_eq_getElem?, List.getElem?_take_of_lt (Nat.lt_succ_self k)]
  exact List.count_pos_iff.mpr (List.get?_mem (hk.trans h))

theorem mem_greedyUnmatched {T : Type} [DecidableEq T] :
    ∀ (actual : List T) (n : Nat) (E : Multiset T) (i : Nat),
      i ∈ greedyUnmatched E (actual.enumFrom n) ↔
        ∃ k v, actual.get? k = some v ∧ i = n + k ∧
          Multiset.count v E < (actual.take (k + 1)).count v := by
  intro actual
  induction actual with
  | nil =>
    intro n E i
    constructor
    · intro h; simp [greedyUnmatched, List.enumFrom] at h
    · rintro ⟨k, v, h1, -, -⟩
      simp [List.get?_eq_getElem?] at h1
  | cons a rest ih =>
    intro n E i
    rw [List.enumFrom_cons, greedyUnmatched]
    by_cases hv : a ∈ E
    · have hvE : 1 ≤ Multiset.count a E := Multiset.one_le_count_iff_mem.mpr hv
      rw [if_pos hv, ih (n + 1) (E.erase a)]
      constructor
      · rintro ⟨k, v, h1, h2, h3⟩
        refine ⟨k + 1, v, h1, by omega, ?_⟩
        rw [List.take_succ_cons]
        by_cases hva : v = a
        · subst hva
          rw [Multiset.count_erase_self] at h3
          rw [List.count_cons_self]
          omega
        · rw [Multiset.count_erase_of_ne hva] at h3
          rw [List.count_cons_of_ne hva]
          exact h3
      · rintro ⟨k, v, h1, h2, h3⟩
        cases k with
        | zero =>
          exfalso
          obtain rfl : a = v := Option.some_inj.mp h1
          rw [List.take_succ_cons, List.take_zero, List.count_cons_self, List.count_nil] at h3
          omega
        | succ k' =>
          refine ⟨k', v, h1, by omega, ?_⟩
          rw [List.take_succ_cons] at h3
          by_cases hva : v = a
          · subst hva
            rw [Multiset.count_erase_self]
            rw [List.count_cons_self] at h3
            omega
          · rw [Multiset.count_erase_of_ne hva]
            rw [List.count_cons_of_ne hva] at h3
            exact h3
    · have hvE0 : Multiset.count a E = 0 := Multiset.count_eq_zero.mpr hv
      rw [if_neg hv, List.mem_cons, ih (n + 1) E]
      constructor
      · rintro (rfl | ⟨k, v, h1, h2, h3⟩)
        · refine ⟨0, a, rfl, by omega, ?_⟩
          rw [List.take_succ_cons, List.take_zero, List.count_cons_self, List.count_nil]
          omega
        · refine ⟨k + 1, v, h1, by omega, ?_⟩
          rw [List.take_succ_cons]
          by_cases hva : v = a
          · subst hva
            rw [List.count_cons_self]
            omega
          · rw [List.count_cons_of_ne hva]
            exact h3
      · rintro ⟨k, v, h1, h2, h3⟩
        cases k with
        | zero =>
          left
          omega
        | succ k' =>
          right
          have h1' : rest.get? k' = some v := h1
          refine ⟨k', v, h1', by omega, ?_⟩
          rw [List.take_succ_cons] at h3
          by_cases hva : v = a
          · subst hva
            rw [List.count_cons_self] at h3
            have hpos := count_take_pos_of_get? h1'
            omega
          · rw [List.count_cons_of_ne hva] at h3
            exact h3

theorem containsOnlyScan_cons {T : Type} [DecidableEq T] (expected : List T)
    (idx : Nat) (v : T) (rest : List (Nat × T)) (ls sl : List Nat) :
    containsOnlyScan expected ((idx, v) :: rest) ⟨ls, sl⟩ =
      match findFirstMatch expected ls v with
      | some i => containsOnlyScan expected rest ⟨swapRemove ls i, sl⟩
      | none => containsOnlyScan expected rest ⟨ls, sl ++ [idx]⟩ := rfl

theorem containsOnlyScan_spec {T : Type} [DecidableEq T] (expected : List T) :
    ∀ (as : List (Nat × T)) (ls sl : List Nat), (∀ j ∈ ls, j < expected.length) →
      ((containsOnlyScan expected as ⟨ls, sl⟩).selfLeftovers
          = sl ++ greedyUnmatched (idxVals expected ls) as)
      ∧ (idxVals expected (containsOnlyScan expected as ⟨ls, sl⟩).expLeftovers
          = idxVals expected ls - ↑(as.map Prod.snd))
      ∧ (∀ j ∈ (containsOnlyScan expected as ⟨ls, sl⟩).expLeftovers, j ∈ ls) := by
  intro as
  induction as with
  | nil =>
    intro ls sl hls
    refine ⟨?_, ?_, fun j hj => hj⟩
    · rw [containsOnlyScan, greedyUnmatched]
      simp
    · rw [containsOnlyScan, List.map_nil]
      show idxVals expected ls = idxVals expected ls - ↑([] : List T)
      rw [Multiset.coe_nil, Multiset.sub_zero]
  | cons p rest ih =>
    obtain ⟨idx, v⟩ := p
    intro ls sl hls
    cases hfind : findFirstMatch expected ls v with
    | some i =>
      have hi : i < ls.length := findFirstMatch_lt_length hfind
      have hv : v ∈ idxVals expected ls := by
        by_contra hc
        rw [← findFirstMatch_none_iff_not_mem] at hc
        rw [hc] at hfind
        cases hfind
      have hsub : ∀ j ∈ swapRemove ls i, j ∈ ls := fun j hj => mem_of_mem_swapRemove hi hj
      have hls' : ∀ j ∈ swapRemove ls i, j < expected.length := fun j hj => hls j (hsub j hj)
      obtain ⟨ihA, ihB, ihC⟩ := ih (swapRemove ls i) sl hls'
      have hstep : idxVals expected (swapRemove ls i) = (idxVals expected ls).erase v :=
        idxVals_swapRemove expected ls i v hfind
      rw [containsOnlyScan_cons, hfind]
      refine ⟨?_, ?_, ?_⟩
      · rw [ihA, hstep, greedyUnmatched, if_pos hv]
      · rw [ihB, hstep, List.map_cons]
        dsimp only
        rw [← Multiset.cons_coe, Multiset.sub_cons]
      · exact fun j hj => hsub j (ihC j hj)
    | none =>
      have hv : v ∉ idxVals expected ls :=
        (findFirstMatch_none_iff_not_mem expected ls v).mp hfind
      obtain ⟨ihA, ihB, ihC⟩ := ih ls (sl ++ [idx]) hls
      rw [containsOnlyScan_cons, hfind]
      refine ⟨?_, ?_, ihC⟩
      · rw [ihA, greedyUnmatched, if_neg hv, List.append_assoc, List.singleton_append]
      · rw [ihB, List.map_cons]
        dsimp only
        rw [← Multiset.cons_coe, Multiset.sub_cons, Multiset.erase_of_not_mem hv]

theorem containsOnlyScan_expLeftovers_nodup {T : Type} [DecidableEq T] (expected : List T) :
    ∀ (as : List (Nat × T)) (ls sl : List Nat), ls.Nodup →
      (containsOnlyScan expected as ⟨ls, sl⟩).expLeftovers.Nodup := by
  intro as
  induction as with
  | nil => intro ls sl h; exact h
  | cons p rest ih =>
    obtain ⟨idx, v⟩ := p
    intro ls sl h
    cases hfind : findFirstMatch expected ls v with
    | some i =>
      rw [containsOnlyScan_cons, hfind]
      exact ih (swapRemove ls i) sl (swapRemove_nodup (findFirstMatch_lt_length hfind) h)
    | none =>
      rw [containsOnlyScan_cons, hfind]
      exact ih ls (sl ++ [idx]) h

theorem filterMap_get?_range {T : Type} :
    ∀ l : List T, (List.range l.length).filterMap l.get? = l := by
  intro l
  induction l with
  | nil => rfl
  | cons a t ih =>
    rw [List.length_cons, List.range_succ_eq_map]
    rw [show ((0 :: (List.range t.length).map Nat.succ).filterMap (a :: t).get?)
        = a :: ((List.range t.length).map Nat.succ).filterMap (a :: t).get? from by
      simp [List.filterMap_cons]]
    rw [List.filterMap_map]
    have hcongr : (List.range t.length).filterMap ((a :: t).get? ∘ Nat.succ)
        = (List.range t.length).filterMap t.get? :=
      List.filterMap_congr (fun x _ => rfl)
    rw [hcongr, ih]

theorem idxVals_range {T : Type} (expected : List T) :
    idxVals expected (List.range expected.length) = ↑expected := by
  rw [idxVals, filterMap_get?_range]

theorem length_filterMap_get? {T : Type} (expected : List T) :
    ∀ ls : List Nat, (∀ j ∈ ls, j < expected.length) →
      (ls.filterMap expected.get?).length = ls.length := by
  intro ls
  induction ls with
  | nil => intro _; rfl
  | cons j t ih =>
    intro h
    have hj : j < expected.length := h j (by simp)
    obtain ⟨a, ha⟩ : ∃ a, expected.get? j = some a := by
      rw [List.get?_eq_getElem?]
      exact ⟨expected[j], List.getElem?_eq_some_iff.mpr ⟨hj, rfl⟩⟩
    simp only [List.filterMap_cons, ha, List.length_cons]
    rw [ih (fun x hx => h x (List.mem_cons_of_mem j hx))]

theorem scanResult_selfLeftovers {T : Type} [DecidableEq T] (actual expected : List T) :
    (scanResult actual expected).selfLeftovers
      = greedyUnmatched (↑expected : Multiset T) actual.enum := by
  have h := (containsOnlyScan_spec expected actual.enum (List.range expected.length) []
    (fun j hj => List.mem_range.mp hj)).1
  rw [scanResult, h, idxVals_range, List.nil_append]

theorem scanResult_expLeftovers_vals {T : Type} [DecidableEq T] (actual expected : List T) :
    idxVals expected (scanResult actual expected).expLeftovers
      = (↑expected : Multiset T) - (↑actual : Multiset T) := by
  have h := (containsOnlyScan_spec expected actual.enum (List.range expected.length) []
    (fun j hj => List.mem_range.mp hj)).2.1
  rw [scanResult, h, idxVals_range, List.enum_map_snd]

theorem scanResult_expLeftovers_lt {T : Type} [DecidableEq T] (actual expected : List T) :
    ∀ j ∈ (scanResult actual expected).expLeftovers, j < expected.length := by
  intro j hj
  have h := (containsOnlyScan_spec expected actual.enum (List.range expected.length) []
    (fun j hj => List.mem_range.mp hj)).2.2
  exact List.mem_range.mp (h j hj)

theorem scanResult_expLeftovers_nodup {T : Type} [DecidableEq T] (actual expected : List T) :
    (scanResult actual expected).expLeftovers.Nodup :=
  containsOnlyScan_expLeftovers_nodup expected actual.enum (List.range expected.length) []
    (List.nodup_range expected.length)

theorem scanResult_expLeftovers_length {T : Type} [DecidableEq T] (actual expected : List T) :
    (scanResult actual expected).expLeftovers.length
      = Multiset.card ((↑expected : Multiset T) - (↑actual : Multiset T)) := by
  have h1 := length_filterMap_get? expected (scanResult actual expected).expLeftovers
    (scanResult_expLeftovers_lt actual expected)
  have h2 : Multiset.card (idxVals expected (scanResult actual expected).expLeftovers)
      = ((scanResult actual expected).expLeftovers.filterMap expected.get?).length := by
    rw [idxVals]
    exact Multiset.coe_card _
  rw [← scanResult_expLeftovers_vals, h2, h1]

theorem scanResult_selfLeftovers_length {T : Type} [DecidableEq T] (actual expected : List T) :
    (scanResult actual expected).selfLeftovers.length
      = Multiset.card ((↑actual : Multiset T) - (↑expected : Multiset T)) := by
  rw [scanResult_selfLeftovers, greedyUnmatched_length, List.enum_map_snd]

theorem scanResult_selfLeftovers_nodup {T : Type} [DecidableEq T] (actual expected : List T) :
    (scanResult actual expected).selfLeftovers.Nodup := by
  rw [scanResult_selfLeftovers]
  have hsub := greedyUnmatched_sublist actual.enum (↑expected : Multiset T)
  rw [List.enum_map_fst] at hsub
  exact hsub.nodup (List.nodup_range actual.length)

theorem scanResult_selfLeftovers_lt {T : Type} [DecidableEq T] (actual expected : List T) :
    ∀ i ∈ (scanResult actual expected).selfLeftovers, i < actual.length := by
  intro i hi
  rw [scanResult_selfLeftovers] at hi
  have hsub := greedyUnmatched_sublist actual.enum (↑expected : Multiset T)
  rw [List.enum_map_fst] at hsub
  exact List.mem_range.mp (hsub.subset hi)

theorem scanResult_selfLeftovers_eq_nil_iff {T : Type} [DecidableEq T]
    (actual expected : List T) :
    (scanResult actual expected).selfLeftovers = []
      ↔ (↑actual : Multiset T) ≤ ↑expected := by
  rw [scanResult_selfLeftovers, greedyUnmatched_eq_nil_iff, List.enum_map_snd]

theorem scanResult_expLeftovers_eq_nil_iff {T : Type} [DecidableEq T]
    (actual expected : List T) :
    (scanResult actual expected).expLeftovers = []
      ↔ (↑expected : Multiset T) ≤ ↑actual := by
  constructor
  · intro h
    have hv := scanResult_expLeftovers_vals actual expected
    rw [h] at hv
    have : (0 : Multiset T) = ↑expected - ↑actual := hv
    exact tsub_eq_zero_iff_le.mp this.symm
  · intro hle
    have hlen := scanResult_expLeftovers_length actual expected
    rw [tsub_eq_zero_iff_le.mpr hle, Multiset.card_zero] at hlen
    exact List.length_eq_zero.mp hlen

theorem mem_scanResult_selfLeftovers {T : Type} [DecidableEq T]
    (actual expected : List T) (i : Nat) (v : T) (h : actual.get? i = some v) :
    i ∈ (scanResult actual expected).selfLeftovers ↔
      expected.count v < (actual.take (i + 1)).count v := by
  rw [scanResult_selfLeftovers]
  rw [show actual.enum = actual.enumFrom 0 from rfl]
  rw [mem_greedyUnmatched]
  constructor
  · rintro ⟨k, w, h1, h2, h3⟩
    obtain rfl : k = i := by omega
    obtain rfl : w = v := Option.some_inj.mp (h1.symm.trans h)
    rw [Multiset.coe_count] at h3
    exact h3
  · intro h3
    refine ⟨i, v, h, by omega, ?_⟩
    rw [Multiset.coe_count]
    exact h3

theorem join_cons (s : String) (l : List String) :
    String.join (s :: l) = s ++ String.join l := by
  rw [String.join_eq, String.join_eq]
  cases s
  rfl

theorem intercalate_go_eq (sep : String) :
    ∀ (xs : List String) (acc : String),
      String.intercalate.go acc sep xs
        = acc ++ String.join (xs.map (fun x => sep ++ x)) := by
  intro xs
  induction xs with
  | nil =>
    intro acc
    show acc = acc ++ String.join []
    rw [show String.join [] = "" from rfl, String.append_empty]
  | cons x xs ih =>
    intro acc
    show String.intercalate.go (acc ++ sep ++ x) sep xs = _
    rw [ih, List.map_cons, join_cons]
    simp [String.append_assoc]

theorem intercalate_cons (sep x : String) (xs : List String) :
    String.intercalate sep (x :: xs) = x ++ String.join (xs.map (fun y => sep ++ y)) := by
  show String.intercalate.go x sep xs = _
  rw [intercalate_go_eq]

theorem writeBadValues_eq_render {T : Type} [DecidableEq T] (fmt : T → String)
    (values : List T) (bad : List Nat) (h : values ≠ []) :
    writeBadValues fmt values bad = some (renderPositional fmt values bad) := by
  cases values with
  | nil => exact absurd rfl h
  | cons v rest =>
    rw [writeBadValues, renderPositional]
    rw [show (v :: rest).enum = (0, v) :: rest.enumFrom 1 from rfl]
    rw [List.map_cons]
    dsimp only
    rw [intercalate_cons, List.map_map]
    have htail : (rest.enumFrom 1).map
          (fun p => if p.1 ∈ bad then ", " ++ fmt p.2 else ", " ++ "_")
        = (rest.enumFrom 1).map
          ((fun y => ", " ++ y) ∘ (fun p : Nat × T => if p.1 ∈ bad then fmt p.2 else "_")) := by
      refine List.map_congr_left fun p _ => ?_
      by_cases hp : p.1 ∈ bad
      · simp [hp]
      · simp [hp]
    rw [htail]
    congr 1


theorem buildResult_eq {T : Type} [DecidableEq T] (fmt : T → String)
    (actual expected : List T) (sl el : List Nat)
    (hs : sl ≠ [] → actual ≠ []) (he : el ≠ [] → expected ≠ []) :
    buildResult fmt actual expected sl el =
      if sl = [] ∧ el = [] then .ok
      else .panicked ("Vectors contain different values:" ++ "\n"
        ++ (if sl = [] then "" else "Unexpected values: " ++ renderPositional fmt actual sl)
        ++ (if el = [] then "" else "Missing expected values: "
              ++ renderPositional fmt expected el)) := by
  rw [buildResult]
  by_cases hsl : sl = []
  · by_cases hel : el = []
    · subst hsl
      subst hel
      rfl
    · subst hsl
      rw [writeBadValues_eq_render fmt expected el (he hel)]
      have helE : el.isEmpty = false := by
        cases el with
        | nil => exact absurd rfl hel
        | cons a t => rfl
      simp [helE, hel]
  · rw [writeBadValues_eq_render fmt actual sl (hs hsl)]
    have hslE : sl.isEmpty = false := by
      cases sl with
      | nil => exact absurd rfl hsl
      | cons a t => rfl
    by_cases hel : el = []
    · subst hel
      simp [hslE, hsl]
    · rw [writeBadValues_eq_render fmt expected el (he hel)]
      have helE : el.isEmpty = false := by
        cases el with
        | nil => exact absurd rfl hel
        | cons a t => rfl
      simp [hslE, helE, hsl, hel]

theorem scanResult_selfLeftovers_ne_nil_actual_ne_nil {T : Type} [DecidableEq T]
    {actual expected : List T}
    (hne : (scanResult actual expected).selfLeftovers ≠ []) : actual ≠ [] := by
  obtain ⟨i, hi⟩ : ∃ i, i ∈ (scanResult actual expected).selfLeftovers := by
    cases h : (scanResult actual expected).selfLeftovers with
    | nil => exact absurd h hne
    | cons a t => exact ⟨a, h ▸ List.mem_cons_self a t⟩
  have hlt := scanResult_selfLeftovers_lt actual expected i hi
  intro h0
  rw [h0] at hlt
  simp at hlt

theorem scanResult_expLeftovers_ne_nil_expected_ne_nil {T : Type} [DecidableEq T]
    {actual expected : List T}
    (hne : (scanResult actual expected).expLeftovers ≠ []) : expected ≠ [] := by
  obtain ⟨j, hj⟩ : ∃ j, j ∈ (scanResult actual expected).expLeftovers := by
    cases h : (scanResult actual expected).expLeftovers with
    | nil => exact absurd h hne
    | cons a t => exact ⟨a, h ▸ List.mem_cons_self a t⟩
  have hlt := scanResult_expLeftovers_lt actual expected j hj
  intro h0
  rw [h0] at hlt
  simp at hlt

theorem contains_only_master {T : Type} [DecidableEq T] (fmt : T → String)
    (actual expected : List T) :
    contains_only fmt ⟨actual⟩ expected =
      if (scanResult actual expected).selfLeftovers = []
          ∧ (scanResult actual expected).expLeftovers = [] then .ok
      else .panicked ("Vectors contain different values:" ++ "\n"
        ++ (if (scanResult actual expected).selfLeftovers = [] then ""
            else "Unexpected values: "
              ++ renderPositional fmt actual (scanResult actual expected).selfLeftovers)
        ++ (if (scanResult actual expected).expLeftovers = [] then ""
            else "Missing expected values: "
              ++ renderPositional fmt expected (scanResult actual expected).expLeftovers)) := by
  rw [contains_only_eq_buildResult]
  exact buildResult_eq fmt actual expected _ _
    scanResult_selfLeftovers_ne_nil_actual_ne_nil
    scanResult_expLeftovers_ne_nil_expected_ne_nil

theorem contains_only_ok_iff_nil {T : Type} [DecidableEq T] (fmt : T → String)
    (actual expected : List T) :
    contains_only fmt ⟨actual⟩ expected = .ok ↔
      (scanResult actual expected).selfLeftovers = []
        ∧ (scanResult actual expected).expLeftovers = [] := by
  rw [contains_only_master]
  by_cases h : (scanResult actual expected).selfLeftovers = []
      ∧ (scanResult actual expected).expLeftovers = []
  · simp [h]
  · simp [h]

theorem coe_multiset_eq_iff_counts {T : Type} [DecidableEq T] (actual expected : List T) :
    (↑actual : Multiset T) = ↑expected ↔ ∀ v, actual.count v = expected.count v := by
  rw [Multiset.ext]
  constructor
  · intro h v
    have hv := h v
    rwa [Multiset.coe_count, Multiset.coe_count] at hv
  · intro h v
    rw [Multiset.coe_count, Multiset.coe_count]
    exact h v

theorem contains_only_ok_iff_counts_aux {T : Type} [DecidableEq T] (fmt : T → String)
    (actual expected : List T) :
    contains_only fmt ⟨actual⟩ expected = .ok ↔
      ∀ v, actual.count v = expected.count v := by
  rw [contains_only_ok_iff_nil, scanResult_selfLeftovers_eq_nil_iff,
    scanResult_expLeftovers_eq_nil_iff, ← coe_multiset_eq_iff_counts]
  constructor
  · intro h
    exact le_antisymm h.1 h.2
  · intro h
    exact ⟨le_of_eq h, le_of_eq h.symm⟩

theorem writeBadValues_congr {T : Type} [DecidableEq T] (fmt : T → String)
    (values : List T) (bad bad' : List Nat) (h : ∀ i, i ∈ bad ↔ i ∈ bad') :
    writeBadValues fmt values bad = writeBadValues fmt values bad' := by
  cases values with
  | nil => rfl
  | cons v rest => simp only [writeBadValues, h]

theorem eq_nil_iff_of_mem_iff {l l' : List Nat} (h : ∀ i, i ∈ l ↔ i ∈ l') :
    l = [] ↔ l' = [] := by
  rw [List.eq_nil_iff_forall_not_mem, List.eq_nil_iff_forall_not_mem]
  constructor
  · intro hl a ha
    exact hl a ((h a).mpr ha)
  · intro hl a ha
    exact hl a ((h a).mp ha)

theorem buildResult_congr {T : Type} [DecidableEq T] (fmt : T → String)
    (actual expected : List T) (sl sl' el el' : List Nat)
    (hsl : ∀ i, i ∈ sl ↔ i ∈ sl') (hel : ∀ j, j ∈ el ↔ j ∈ el') :
    buildResult fmt actual expected sl el = buildResult fmt actual expected sl' el' := by
  have hslE : sl.isEmpty = sl'.isEmpty := by
    by_cases h1 : sl = []
    · have h2 : sl' = [] := (eq_nil_iff_of_mem_iff hsl).mp h1
      rw [h1, h2]
    · have h2 : sl' ≠ [] := fun hh => h1 ((eq_nil_iff_of_mem_iff hsl).mpr hh)
      cases sl with
      | nil => exact absurd rfl h1
      | cons a t =>
        cases sl' with
        | nil => exact absurd rfl h2
        | cons a' t' => rfl
  have helE : el.isEmpty = el'.isEmpty := by
    by_cases h1 : el = []
    · have h2 : el' = [] := (eq_nil_iff_of_mem_iff hel).mp h1
      rw [h1, h2]
    · have h2 : el' ≠ [] := fun hh => h1 ((eq_nil_iff_of_mem_iff hel).mpr hh)
      cases el with
      | nil => exact absurd rfl h1
      | cons a t =>
        cases el' with
        | nil => exact absurd rfl h2
        | cons a' t' => rfl
  rw [buildResult, buildResult, hslE, helE,
    writeBadValues_congr fmt actual sl sl' hsl, writeBadValues_congr fmt expected el el' hel]

theorem containsOnlyScanFuel_cons {T : Type} [DecidableEq T] (expected : List T)
    (fuel idx : Nat) (v : T) (rest : List (Nat × T)) (st : MatchState) :
    containsOnlyScanFuel expected (fuel + 1) ((idx, v) :: rest) st =
      match findFirstMatch expected st.expLeftovers v with
      | some i =>
        containsOnlyScanFuel expected fuel rest ⟨swapRemove st.expLeftovers i, st.selfLeftovers⟩
      | none =>
        containsOnlyScanFuel expected fuel rest ⟨st.expLeftovers, st.selfLeftovers ++ [idx]⟩ := rfl

theorem containsOnlyScan_cons_state {T : Type} [DecidableEq T] (expected : List T)
    (idx : Nat) (v : T) (rest : List (Nat × T)) (st : MatchState) :
    containsOnlyScan expected ((idx, v) :: rest) st =
      match findFirstMatch expected st.expLeftovers v with
      | some i => containsOnlyScan expected rest ⟨swapRemove st.expLeftovers i, st.selfLeftovers⟩
      | none => containsOnlyScan expected rest ⟨st.expLeftovers, st.selfLeftovers ++ [idx]⟩ := rfl

theorem containsOnlyScanFuel_enough {T : Type} [DecidableEq T] (expected : List T) :
    ∀ (as : List (Nat × T)) (st : MatchState),
      containsOnlyScanFuel expected as.length as st
        = some (containsOnlyScan expected as st) := by
  intro as
  induction as with
  | nil => intro st; rfl
  | cons p rest ih =>
    obtain ⟨idx, v⟩ := p
    intro st
    rw [List.length_cons, containsOnlyScanFuel_cons, containsOnlyScan_cons_state]
    cases hfind : findFirstMatch expected st.expLeftovers v with
    | some i =>
      dsimp only
      exact ih _
    | none =>
      dsimp only
      exact ih _

theorem scanComparisons_cons {T : Type} [DecidableEq T] (expected : List T)
    (idx : Nat) (v : T) (rest : List (Nat × T)) (ls : List Nat) :
    scanComparisons expected ((idx, v) :: rest) ls =
      match findFirstMatch expected ls v with
      | some i => (i + 1) + scanComparisons expected rest (swapRemove ls i)
      | none => ls.length + scanComparisons expected rest ls := rfl

theorem scanComparisons_le {T : Type} [DecidableEq T] (expected : List T) :
    ∀ (as : List (Nat × T)) (ls : List Nat) (L : Nat), ls.length ≤ L →
      scanComparisons expected as ls ≤ as.length * L := by
  intro as
  induction as with
  | nil =>
    intro ls L _
    show 0 ≤ 0 * L
    omega
  | cons p rest ih =>
    obtain ⟨idx, v⟩ := p
    intro ls L hL
    rw [scanComparisons_cons, List.length_cons]
    cases hfind : findFirstMatch expected ls v with
    | some i =>
      dsimp only
      have hi : i < ls.length := findFirstMatch_lt_length hfind
      have hiL : i + 1 ≤ L := Nat.le_trans (Nat.succ_le_of_lt hi) hL
      have hlen : (swapRemove ls i).length = ls.length - 1 := swapRemove_length ls i hi
      have hswap : (swapRemove ls i).length ≤ L := by omega
      have hrec := ih (swapRemove ls i) L hswap
      calc (i + 1) + scanComparisons expected rest (swapRemove ls i)
          ≤ L + rest.length * L := Nat.add_le_add hiL hrec
        _ = (rest.length + 1) * L := by ring
    | none =>
      dsimp only
      have hrec := ih ls L hL
      calc ls.length + scanComparisons expected rest ls
          ≤ L + rest.length * L := Nat.add_le_add hL hrec
        _ = (rest.length + 1) * L := by ring

/-- C1: `contains_only` succeeds (returns `.ok`, no panic) if and only if every
value occurs equally often in the actual and the expected vector — multiset
equivalence, which is exactly the existence of an index bijection pairing equal
elements; order therefore never affects the outcome. In particular comparing
`[1,1,2]` against `[1,2,2]` fails. -/
theorem contains_only_ok_iff_multiset_eq {T : Type} [DecidableEq T] (fmt : T → String)
    (actual expected : List T) :
    (contains_only fmt ⟨actual⟩ expected = .ok ↔
      ∀ v, actual.count v = expected.count v)
    ∧ contains_only fmtNat ⟨[1, 1, 2]⟩ [1, 2, 2] ≠ .ok :=
  ⟨contains_only_ok_iff_counts_aux fmt actual expected, by decide⟩

/-- C2: the five concrete scenarios: `[]` vs `[0]`, `[0]` vs `[]`, `[5]` vs
`[0]` and `[1,2,2,1,3]` vs `[1,2,3]` fail with the exact byte-for-byte panic
messages, and `[1,2,3,4,5]` vs `[2,3,5,1,4]` succeeds. -/
theorem contains_only_concrete_scenarios :
    contains_only fmtNat ⟨[]⟩ [0]
        = .panicked ("Vectors contain different values:\nMissing expected values: [0]\n")
    ∧ contains_only fmtNat ⟨[0]⟩ []
        = .panicked ("Vectors contain different values:\nUnexpected values: [0]\n")
    ∧ contains_only fmtNat ⟨[5]⟩ [0]
        = .panicked
          ("Vectors contain different values:\nUnexpected values: [5]\nMissing expected values: [0]\n")
    ∧ contains_only fmtNat ⟨[1, 2, 2, 1, 3]⟩ [1, 2, 3]
        = .panicked ("Vectors contain different values:\nUnexpected values: [_, _, 2, 1, _]\n")
    ∧ contains_only fmtNat ⟨[1, 2, 3, 4, 5]⟩ [2, 3, 5, 1, 4] = .ok := by
  refine ⟨?_, ?_, ?_, ?_, ?_⟩ <;> decide

/-- C3: on any mismatch the failure message is exactly the summary line
`Vectors contain different values:`, then an `Unexpected values: ` line only
when the unexpected set is non-empty, then a `Missing expected values: ` line
only when the unmatched-expected set is non-empty, in that order; each section
renders the full sequence positionally (leftover indices show the element,
other indices show `_`), entries joined with `", "`, bracketed, and
newline-terminated. -/
theorem contains_only_report_format {T : Type} [DecidableEq T] (fmt : T → String)
    (actual expected : List T) (h : contains_only fmt ⟨actual⟩ expected ≠ .ok) :
    contains_only fmt ⟨actual⟩ expected = .panicked
      ("Vectors contain different values:" ++ "\n"
        ++ (if (scanResult actual expected).selfLeftovers = [] then ""
            else "Unexpected values: "
              ++ renderPositional fmt actual (scanResult actual expected).selfLeftovers)
        ++ (if (scanResult actual expected).expLeftovers = [] then ""
            else "Missing expected values: "
              ++ renderPositional fmt expected (scanResult actual expected).expLeftovers)) := by
  have hm := contains_only_master fmt actual expected
  by_cases hc : (scanResult actual expected).selfLeftovers = []
      ∧ (scanResult actual expected).expLeftovers = []
  · rw [hm, if_pos hc] at h
    exact absurd rfl h
  · rw [hm, if_neg hc]

theorem contains_only_report_format_witness :
    contains_only fmtNat ⟨[5]⟩ [0] = .panicked
      ("Vectors contain different values:" ++ "\n"
        ++ (if (scanResult [5] [0]).selfLeftovers = [] then ""
            else "Unexpected values: "
              ++ renderPositional fmtNat [5] (scanResult [5] [0]).selfLeftovers)
        ++ (if (scanResult [5] [0]).expLeftovers = [] then ""
            else "Missing expected values: "
              ++ renderPositional fmtNat [0] (scanResult [5] [0]).expLeftovers)) :=
  contains_only_report_format fmtNat [5] [0] (by decide)

/-- C4: after the matching pass both leftover index sets are duplicate-free and
drawn from the respective vector's index range (so every index is in exactly
one of matched / leftover), each is no larger than its vector, and the number
of matched pairs agrees from both sides:
`len(actual) - |unexpected| = len(expected) - |unmatched|`. -/
theorem matching_pass_partition {T : Type} [DecidableEq T] (actual expected : List T) :
    (scanResult actual expected).selfLeftovers.Nodup
    ∧ (∀ i ∈ (scanResult actual expected).selfLeftovers, i < actual.length)
    ∧ (scanResult actual expected).expLeftovers.Nodup
    ∧ (∀ j ∈ (scanResult actual expected).expLeftovers, j < expected.length)
    ∧ (scanResult actual expected).selfLeftovers.length ≤ actual.length
    ∧ (scanResult actual expected).expLeftovers.length ≤ expected.length
    ∧ actual.length - (scanResult actual expected).selfLeftovers.length
        = expected.length - (scanResult actual expected).expLeftovers.length := by
  have hslL := scanResult_selfLeftovers_length actual expected
  have helL := scanResult_expLeftovers_length actual expected
  have h1 : Multiset.card ((↑actual : Multiset T) - (↑expected : Multiset T))
      + Multiset.card ((↑actual : Multiset T) ∩ (↑expected : Multiset T))
      = actual.length := by
    rw [← Multiset.card_add, Multiset.sub_add_inter, Multiset.coe_card]
  have h2 : Multiset.card ((↑expected : Multiset T) - (↑actual : Multiset T))
      + Multiset.card ((↑actual : Multiset T) ∩ (↑expected : Multiset T))
      = expected.length := by
    rw [Multiset.inter_comm, ← Multiset.card_add, Multiset.sub_add_inter, Multiset.coe_card]
  refine ⟨scanResult_selfLeftovers_nodup actual expected,
    scanResult_selfLeftovers_lt actual expected,
    scanResult_expLeftovers_nodup actual expected,
    scanResult_expLeftovers_lt actual expected, ?_, ?_, ?_⟩ <;> omega

/-- C5: comparing any sequence against any permutation of it succeeds, and
comparing any sequence against a copy of itself succeeds, including the empty
sequence. -/
theorem contains_only_perm_ok {T : Type} [DecidableEq T] (fmt : T → String)
    (actual expected : List T) (h : actual.Perm expected) :
    contains_only fmt ⟨actual⟩ expected = .ok
    ∧ ∀ l : List T, contains_only fmt ⟨l⟩ l = .ok := by
  constructor
  · rw [contains_only_ok_iff_counts_aux]
    exact fun v => h.count_eq v
  · intro l
    rw [contains_only_ok_iff_counts_aux]
    exact fun _ => rfl

theorem contains_only_perm_ok_witness :
    contains_only fmtNat ⟨[3, 5, 2, 1, 4]⟩ [1, 2, 3, 4, 5] = .ok
    ∧ contains_only fmtNat ⟨([] : List Nat)⟩ [] = .ok :=
  ⟨(contains_only_perm_ok fmtNat [3, 5, 2, 1, 4] [1, 2, 3, 4, 5] (by decide)).1,
   (contains_only_perm_ok fmtNat ([] : List Nat) [] (List.Perm.refl _)).2 []⟩

/-- C6: determinism: the report-building stage consumes the leftover index
collections only through membership tests and emptiness, so any two index
lists with the same members produce identical results — `HashSet` iteration
order cannot influence the outcome or the report bytes — and equal inputs
always produce equal results. -/
theorem contains_only_deterministic {T : Type} [DecidableEq T] (fmt : T → String)
    (actual expected : List T) (sl sl' el el' : List Nat)
    (hsl : ∀ i, i ∈ sl ↔ i ∈ sl') (hel : ∀ j, j ∈ el ↔ j ∈ el') :
    buildResult fmt actual expected sl el = buildResult fmt actual expected sl' el'
    ∧ ∀ av : AssertVec T, contains_only fmt av expected = contains_only fmt av expected :=
  ⟨buildResult_congr fmt actual expected sl sl' el el' hsl hel, fun _ => rfl⟩

theorem contains_only_deterministic_witness :
    buildResult fmtNat [1, 2] [] [0, 1] [] = buildResult fmtNat [1, 2] [] [1, 0] []
    ∧ ∀ av : AssertVec Nat, contains_only fmtNat av [] = contains_only fmtNat av [] :=
  contains_only_deterministic fmtNat [1, 2] [] [0, 1] [1, 0] [] []
    (fun i => by
      simp only [List.mem_cons]
      tauto)
    (fun _ => Iff.rfl)

/-- C7: `contains_only` borrows the wrapped vector immutably: the state-passing
reading of the call returns the receiver unchanged, and the call's only
possible outcomes are normal return or a panic carrying the report — no other
effect on caller-owned data exists in the model. -/
theorem contains_only_no_mutation {T : Type} [DecidableEq T] (fmt : T → String)
    (av : AssertVec T) (expected : List T) :
    (contains_only_run fmt av expected).1 = av
    ∧ ((contains_only_run fmt av expected).2 = .ok
        ∨ ∃ msg, (contains_only_run fmt av expected).2 = .panicked msg) := by
  refine ⟨rfl, ?_⟩
  show contains_only fmt av expected = .ok
    ∨ ∃ msg, contains_only fmt av expected = .panicked msg
  obtain ⟨val⟩ := av
  rw [contains_only_master]
  by_cases hc : (scanResult val expected).selfLeftovers = []
      ∧ (scanResult val expected).expLeftovers = []
  · left
    rw [if_pos hc]
  · right
    exact ⟨_, by rw [if_neg hc]⟩

/-- C8: `contains_only` terminates on all finite inputs: the outer loop runs
exactly `len(actual)` iterations (the fuel-indexed loop with that much fuel
already finishes), and the total number of element comparisons is bounded by
`len(actual) * len(expected)`. -/
theorem contains_only_terminates {T : Type} [DecidableEq T] (actual expected : List T) :
    containsOnlyScanFuel expected actual.enum.length actual.enum
        ⟨List.range expected.length, []⟩
      = some (scanResult actual expected)
    ∧ scanComparisons expected actual.enum (List.range expected.length)
        ≤ actual.length * expected.length := by
  constructor
  · rw [scanResult]
    exact containsOnlyScanFuel_enough expected actual.enum _
  · have h := scanComparisons_le expected actual.enum (List.range expected.length)
      expected.length (by rw [List.length_range])
    rwa [List.enum_length] at h

/-- C9: the `unwrap()` on the first iterator element in `write_bad_values`
would panic exactly on an empty values vector, and that case is unreachable
from `contains_only`: each call is guarded by non-emptiness of a leftover set
whose indices all lie in the vector's range, so the vector is non-empty and
`contains_only` never yields the `unwrapPanic` outcome. -/
theorem write_bad_values_unwrap_unreachable {T : Type} [DecidableEq T] (fmt : T → String)
    (values : List T) (bad : List Nat) (av : AssertVec T) (expected : List T) :
    (writeBadValues fmt values bad = none ↔ values = [])
    ∧ contains_only fmt av expected ≠ .unwrapPanic := by
  constructor
  · cases values with
    | nil => simp [writeBadValues]
    | cons v rest => simp [writeBadValues]
  · obtain ⟨val⟩ := av
    rw [contains_only_master]
    by_cases hc : (scanResult val expected).selfLeftovers = []
        ∧ (scanResult val expected).expLeftovers = []
    · rw [if_pos hc]
      intro hcontra
      cases hcontra
    · rw [if_neg hc]
      intro hcontra
      cases hcontra

/-- C10: the greedy first-match scan flags exactly the excess later duplicates:
actual index `i` lands in the unexpected set iff the number of occurrences of
`actual[i]` within `actual[0..=i]` exceeds the total count of that value in
`expected`. -/
theorem greedy_flags_excess_duplicates {T : Type} [DecidableEq T]
    (actual expected : List T) (i : Nat) (v : T) (h : actual.get? i = some v) :
    i ∈ (scanResult actual expected).selfLeftovers ↔
      expected.count v < (actual.take (i + 1)).count v :=
  mem_scanResult_selfLeftovers actual expected i v h

theorem greedy_flags_excess_duplicates_witness :
    (2 ∈ (scanResult [1, 2, 2, 1, 3] [1, 2, 3]).selfLeftovers ↔
      ([1, 2, 3] : List Nat).count 2 < (([1, 2, 2, 1, 3] : List Nat).take (2 + 1)).count 2) :=
  greedy_flags_excess_duplicates [1, 2, 2, 1, 3] [1, 2, 3] 2 2 rfl

end Corrosion
